import Mathlib

/-!
# A verification model of the xlsx-quick-append incremental editor

The repository's visible slice is its binding layer and test harness; the
core engine (archive accessor, cell-address resolver, shared-string table,
workbook scanner, sheet editor, serializer) is specified in the design
document.  This file gives an executable shallow embedding of that core,
modelled from the specification, and proves the specification's testable
properties over it.
-/

set_option maxHeartbeats 1000000

/-! ## Cell Address Resolver (spec 4.2) -/

/-- Is `c` an uppercase column letter `A`..`Z`? -/
def isColChar (c : Char) : Bool := 65 ≤ c.toNat && c.toNat ≤ 90

/-- Is `c` a decimal digit `0`..`9`? -/
def isDigitChar (c : Char) : Bool := 48 ≤ c.toNat && c.toNat ≤ 57

/-- Modelled from the spec: lowercase letters are normalized to uppercase
before address parsing ("lowercase is normalized, not rejected"). -/
def normChar (c : Char) : Char :=
  if 97 ≤ c.toNat && c.toNat ≤ 122 then Char.ofNat (c.toNat - 32) else c

/-- Column letters to a 1-based column number: base-26 with no zero digit
(A=1, ..., Z=26, AA=27, ...). -/
def lettersToNat (cs : List Char) : Nat :=
  cs.foldl (fun acc c => acc * 26 + (c.toNat - 64)) 0

/-- Fuel-driven worker for `lettersOfNat` (structural recursion so that the
function evaluates definitionally). -/
def lettersOfNatAux : Nat → Nat → List Char
  | 0, _ => []
  | fuel + 1, n =>
    if n = 0 then []
    else lettersOfNatAux fuel ((n - 1) / 26) ++ [Char.ofNat (64 + ((n - 1) % 26 + 1))]

/-- 1-based column number to column letters, base-26 with no zero digit. -/
def lettersOfNat (n : Nat) : List Char := lettersOfNatAux n n

/-- Decimal digit characters to the natural number they denote. -/
def digitsToNat (cs : List Char) : Nat :=
  cs.foldl (fun acc c => acc * 10 + (c.toNat - 48)) 0

/-- Fuel-driven worker for `natToDigits`. -/
def natToDigitsAux : Nat → Nat → List Char
  | 0, _ => []
  | fuel + 1, n =>
    if n = 0 then []
    else natToDigitsAux fuel (n / 10) ++ [Char.ofNat (48 + n % 10)]

/-- A positive natural number's decimal digit characters (no leading zeros);
`natToDigits 0 = []`. -/
def natToDigits (n : Nat) : List Char := natToDigitsAux n n

/-- Modelled from the spec: `parse(address) -> (row, col)`, zero-based, from
the canonical form "one or more uppercase letters followed by a positive
integer"; lowercase is normalized; anything else is rejected (`none`). -/
def parseAddr (s : String) : Option (Nat × Nat) :=
  let cs := s.data.map normChar
  let letters := cs.takeWhile isColChar
  let rest := cs.dropWhile isColChar
  if letters.isEmpty then none
  else if rest.isEmpty then none
  else if rest.all isDigitChar then
    let n := digitsToNat rest
    if n = 0 then none else some (n - 1, lettersToNat letters - 1)
  else none

/-- Modelled from the spec: `format(row, col) -> string`, the exact inverse of
`parse` on the canonical form. -/
def formatAddr (r c : Nat) : String := ⟨lettersOfNat (c + 1) ++ natToDigits (r + 1)⟩

/-- An address string is canonical when it is uppercase column letters followed
by a positive decimal integer with no leading zero. -/
def addrCanonical (a : String) : Bool :=
  let ls := a.data.takeWhile isColChar
  let ds := a.data.dropWhile isColChar
  !ls.isEmpty &&
    (match ds with
     | [] => false
     | d :: _ => (49 ≤ d.toNat && d.toNat ≤ 57) && ds.all isDigitChar)

/-! ### Character-level lemmas -/

theorem char_toNat_ofNat_of_lt (k : Nat) (h : k < 55296) : (Char.ofNat k).toNat = k := by
  have hv : k.isValidChar := Or.inl h
  rw [Char.ofNat, dif_pos hv]
  rfl

theorem isColChar_iff (c : Char) : isColChar c = true ↔ 65 ≤ c.toNat ∧ c.toNat ≤ 90 := by
  simp [isColChar]

theorem isDigitChar_iff (c : Char) : isDigitChar c = true ↔ 48 ≤ c.toNat ∧ c.toNat ≤ 57 := by
  simp [isDigitChar]

theorem normChar_fixed (c : Char) (h : c.toNat ≤ 90) : normChar c = c := by
  have : ¬ (97 ≤ c.toNat && c.toNat ≤ 122) = true := by
    simp only [Bool.and_eq_true, decide_eq_true_eq]
    omega
  simp [normChar, this]

/-! ### Fuel elimination: recurrence equations for the printers -/

theorem lettersOfNatAux_mono : ∀ f1 f2 n, n ≤ f1 → n ≤ f2 →
    lettersOfNatAux f1 n = lettersOfNatAux f2 n := by
  intro f1
  induction f1 with
  | zero =>
    intro f2 n h1 _
    cases f2 with
    | zero => rfl
    | succ g =>
      have hn : n = 0 := Nat.le_zero.mp h1
      simp [lettersOfNatAux, hn]
  | succ f ih =>
    intro f2 n h1 h2
    cases f2 with
    | zero =>
      have hn : n = 0 := Nat.le_zero.mp h2
      simp [lettersOfNatAux, hn]
    | succ g =>
      by_cases hn : n = 0
      · simp [lettersOfNatAux, hn]
      · have hd : (n - 1) / 26 ≤ n - 1 := Nat.div_le_self _ _
        simp only [lettersOfNatAux, if_neg hn]
        rw [ih g ((n - 1) / 26) (by omega) (by omega)]

theorem lettersOfNat_eq (n : Nat) :
    lettersOfNat n = if n = 0 then []
      else lettersOfNat ((n - 1) / 26) ++ [Char.ofNat (64 + ((n - 1) % 26 + 1))] := by
  cases n with
  | zero => rfl
  | succ k =>
    have hd : k / 26 ≤ k := Nat.div_le_self _ _
    show lettersOfNatAux (k + 1) (k + 1) = _
    rw [if_neg (Nat.succ_ne_zero k)]
    simp only [lettersOfNatAux, if_neg (Nat.succ_ne_zero k), Nat.succ_sub_one]
    rw [lettersOfNatAux_mono k (k / 26) (k / 26) hd (Nat.le_refl _)]
    rfl

theorem natToDigitsAux_mono : ∀ f1 f2 n, n ≤ f1 → n ≤ f2 →
    natToDigitsAux f1 n = natToDigitsAux f2 n := by
  intro f1
  induction f1 with
  | zero =>
    intro f2 n h1 _
    cases f2 with
    | zero => rfl
    | succ g =>
      have hn : n = 0 := Nat.le_zero.mp h1
      simp [natToDigitsAux, hn]
  | succ f ih =>
    intro f2 n h1 h2
    cases f2 with
    | zero =>
      have hn : n = 0 := Nat.le_zero.mp h2
      simp [natToDigitsAux, hn]
    | succ g =>
      by_cases hn : n = 0
      · simp [natToDigitsAux, hn]
      · have hd : n / 10 ≤ n := Nat.div_le_self _ _
        have hlt : n / 10 < n := Nat.div_lt_self (by omega) (by omega)
        simp only [natToDigitsAux, if_neg hn]
        rw [ih g (n / 10) (by omega) (by omega)]

theorem natToDigits_eq (n : Nat) :
    natToDigits n = if n = 0 then []
      else natToDigits (n / 10) ++ [Char.ofNat (48 + n % 10)] := by
  cases n with
  | zero => rfl
  | succ k =>
    have hlt : (k + 1) / 10 < k + 1 := Nat.div_lt_self (by omega) (by omega)
    show natToDigitsAux (k + 1) (k + 1) = _
    rw [if_neg (Nat.succ_ne_zero k)]
    simp only [natToDigitsAux, if_neg (Nat.succ_ne_zero k)]
    rw [natToDigitsAux_mono k ((k + 1) / 10) ((k + 1) / 10) (by omega) (by omega)]
    rfl

/-! ### Digit-string round trips -/

theorem lettersToNat_nil : lettersToNat [] = 0 := rfl

theorem lettersToNat_append_singleton (cs : List Char) (c : Char) :
    lettersToNat (cs ++ [c]) = lettersToNat cs * 26 + (c.toNat - 64) := by
  simp [lettersToNat, List.foldl_append]

theorem digitsToNat_append_singleton (cs : List Char) (c : Char) :
    digitsToNat (cs ++ [c]) = digitsToNat cs * 10 + (c.toNat - 48) := by
  simp [digitsToNat, List.foldl_append]

theorem letters_foldl_ge (cs : List Char) : ∀ a : Nat,
    a ≤ cs.foldl (fun acc c => acc * 26 + (c.toNat - 64)) a := by
  induction cs with
  | nil => intro a; exact Nat.le_refl a
  | cons c cs ih =>
    intro a
    have h1 : a ≤ a * 26 + (c.toNat - 64) := by omega
    exact Nat.le_trans h1 (ih _)

theorem digits_foldl_ge (cs : List Char) : ∀ a : Nat,
    a ≤ cs.foldl (fun acc c => acc * 10 + (c.toNat - 48)) a := by
  induction cs with
  | nil => intro a; exact Nat.le_refl a
  | cons c cs ih =>
    intro a
    have h1 : a ≤ a * 10 + (c.toNat - 48) := by omega
    exact Nat.le_trans h1 (ih _)

theorem lettersToNat_pos (c : Char) (cs : List Char) (hc : isColChar c = true) :
    1 ≤ lettersToNat (c :: cs) := by
  rw [isColChar_iff] at hc
  have h1 : 1 ≤ 0 * 26 + (c.toNat - 64) := by omega
  exact Nat.le_trans h1 (letters_foldl_ge cs _)

theorem digitsToNat_pos (c : Char) (cs : List Char) (hc : 49 ≤ c.toNat) :
    1 ≤ digitsToNat (c :: cs) := by
  have h1 : 1 ≤ 0 * 10 + (c.toNat - 48) := by omega
  exact Nat.le_trans h1 (digits_foldl_ge cs _)

theorem lettersToNat_lettersOfNat (n : Nat) : lettersToNat (lettersOfNat n) = n := by
  induction n using Nat.strong_induction_on with
  | _ n ih =>
    by_cases hn : n = 0
    · simp [lettersOfNat_eq, hn, lettersToNat_nil]
    · rw [lettersOfNat_eq, if_neg hn, lettersToNat_append_singleton]
      have hd : (n - 1) / 26 ≤ n - 1 := Nat.div_le_self _ _
      rw [ih ((n - 1) / 26) (by omega)]
      rw [char_toNat_ofNat_of_lt (64 + ((n - 1) % 26 + 1)) (by omega)]
      omega

theorem digitsToNat_natToDigits (n : Nat) : digitsToNat (natToDigits n) = n := by
  induction n using Nat.strong_induction_on with
  | _ n ih =>
    by_cases hn : n = 0
    · simp [natToDigits_eq, hn]; rfl
    · rw [natToDigits_eq, if_neg hn, digitsToNat_append_singleton]
      have hlt : n / 10 < n := Nat.div_lt_self (by omega) (by omega)
      rw [ih (n / 10) hlt]
      rw [char_toNat_ofNat_of_lt (48 + n % 10) (by omega)]
      omega

theorem lettersOfNat_chars (n : Nat) : ∀ c ∈ lettersOfNat n, isColChar c = true := by
  induction n using Nat.strong_induction_on with
  | _ n ih =>
    by_cases hn : n = 0
    · simp [lettersOfNat_eq, hn]
    · rw [lettersOfNat_eq, if_neg hn]
      intro c hc
      rcases List.mem_append.mp hc with h | h
      · have hd : (n - 1) / 26 ≤ n - 1 := Nat.div_le_self _ _
        exact ih ((n - 1) / 26) (by omega) c h
      · have hce : c = Char.ofNat (64 + ((n - 1) % 26 + 1)) := by
          simpa using h
        subst hce
        rw [isColChar_iff, char_toNat_ofNat_of_lt (64 + ((n - 1) % 26 + 1)) (by omega)]
        omega

theorem natToDigits_chars (n : Nat) : ∀ c ∈ natToDigits n, isDigitChar c = true := by
  induction n using Nat.strong_induction_on with
  | _ n ih =>
    by_cases hn : n = 0
    · simp [natToDigits_eq, hn]
    · rw [natToDigits_eq, if_neg hn]
      intro c hc
      rcases List.mem_append.mp hc with h | h
      · have hlt : n / 10 < n := Nat.div_lt_self (by omega) (by omega)
        exact ih (n / 10) hlt c h
      · have hce : c = Char.ofNat (48 + n % 10) := by
          simpa using h
        subst hce
        rw [isDigitChar_iff, char_toNat_ofNat_of_lt (48 + n % 10) (by omega)]
        omega

theorem lettersOfNat_ne_nil (n : Nat) (hn : n ≠ 0) : lettersOfNat n ≠ [] := by
  rw [lettersOfNat_eq, if_neg hn]
  simp

theorem natToDigits_ne_nil (n : Nat) (hn : n ≠ 0) : natToDigits n ≠ [] := by
  rw [natToDigits_eq, if_neg hn]
  simp

theorem lettersOfNat_lettersToNat (cs : List Char) (hcs : ∀ c ∈ cs, isColChar c = true) :
    lettersOfNat (lettersToNat cs) = cs := by
  induction cs using List.reverseRecOn with
  | nil => rfl
  | append_singleton xs x ih =>
    have hx : isColChar x = true := hcs x (List.mem_append_right xs (List.mem_singleton.mpr rfl))
    rw [isColChar_iff] at hx
    have hxs : ∀ c ∈ xs, isColChar c = true :=
      fun c hc => hcs c (List.mem_append_left [x] hc)
    rw [lettersToNat_append_singleton]
    set m := lettersToNat xs with hm
    set d := x.toNat - 64 with hd
    have hd1 : 1 ≤ d := by omega
    have hd26 : d ≤ 26 := by omega
    have hne : m * 26 + d ≠ 0 := by omega
    rw [lettersOfNat_eq, if_neg hne]
    have hdiv : (m * 26 + d - 1) / 26 = m := by omega
    have hmod : (m * 26 + d - 1) % 26 = d - 1 := by omega
    rw [hdiv, hmod]
    have hchar : Char.ofNat (64 + (d - 1 + 1)) = x := by
      have : 64 + (d - 1 + 1) = x.toNat := by omega
      rw [this, Char.ofNat_toNat]
    rw [hchar]
    cases xs with
    | nil => simp [hm, lettersToNat_nil, lettersOfNat_eq]
    | cons y ys =>
      have hpos : 1 ≤ m := lettersToNat_pos y ys (hxs y (List.mem_cons_self y ys))
      rw [ih hxs]

theorem natToDigits_digitsToNat (cs : List Char) (hcs : ∀ c ∈ cs, isDigitChar c = true)
    (hhead : ∀ c, cs.head? = some c → 49 ≤ c.toNat) :
    natToDigits (digitsToNat cs) = cs := by
  induction cs using List.reverseRecOn with
  | nil => rfl
  | append_singleton xs x ih =>
    have hx : isDigitChar x = true := hcs x (List.mem_append_right xs (List.mem_singleton.mpr rfl))
    rw [isDigitChar_iff] at hx
    have hxs : ∀ c ∈ xs, isDigitChar c = true :=
      fun c hc => hcs c (List.mem_append_left [x] hc)
    rw [digitsToNat_append_singleton]
    set m := digitsToNat xs with hm
    set d := x.toNat - 48 with hd
    have hd9 : d ≤ 9 := by omega
    cases xs with
    | nil =>
      have h49 : 49 ≤ x.toNat := by
        apply hhead
        rfl
      have hne : m * 10 + d ≠ 0 := by
        rw [hm]
        simp only [digitsToNat, List.foldl_nil]
        omega
      rw [natToDigits_eq, if_neg hne]
      have hm0 : m = 0 := rfl
      have hdiv : (m * 10 + d) / 10 = 0 := by omega
      have hmod : (m * 10 + d) % 10 = d := by omega
      rw [hdiv, hmod]
      have hchar : Char.ofNat (48 + d) = x := by
        have : 48 + d = x.toNat := by omega
        rw [this, Char.ofNat_toNat]
      rw [hchar]
      rfl
    | cons y ys =>
      have hy49 : 49 ≤ y.toNat := by
        apply hhead
        rfl
      have hpos : 1 ≤ m := digitsToNat_pos y ys hy49
      have hne : m * 10 + d ≠ 0 := by omega
      rw [natToDigits_eq, if_neg hne]
      have hdiv : (m * 10 + d) / 10 = m := by omega
      have hmod : (m * 10 + d) % 10 = d := by omega
      rw [hdiv, hmod]
      have hchar : Char.ofNat (48 + d) = x := by
        have : 48 + d = x.toNat := by omega
        rw [this, Char.ofNat_toNat]
      rw [hchar]
      have hih : natToDigits m = y :: ys := by
        apply ih hxs
        intro c hc
        have hcy : y = c := by
          rw [List.head?_cons] at hc
          exact Option.some.inj hc
        rw [← hcy]
        exact hy49
      rw [hih]

/-! ### Splitting a letters-then-digits list -/

theorem takeWhile_append_all (p : Char → Bool) :
    ∀ (l1 l2 : List Char), (∀ c ∈ l1, p c = true) →
      (∀ c, l2.head? = some c → p c = false) →
      (l1 ++ l2).takeWhile p = l1 ∧ (l1 ++ l2).dropWhile p = l2 := by
  intro l1
  induction l1 with
  | nil =>
    intro l2 _ h2
    cases l2 with
    | nil => exact ⟨rfl, rfl⟩
    | cons c t =>
      have hc : p c = false := h2 c rfl
      simp [List.takeWhile, List.dropWhile, hc]
  | cons a l1 ih =>
    intro l2 h1 h2
    have ha : p a = true := h1 a (List.mem_cons_self a l1)
    have h1t : ∀ c ∈ l1, p c = true := fun c hc => h1 c (List.mem_cons_of_mem a hc)
    obtain ⟨ht, hdrp⟩ := ih l2 h1t h2
    constructor
    · simp [List.takeWhile, ha, ht]
    · simp [List.dropWhile, ha, hdrp]

theorem map_normChar_id (l : List Char) (h : ∀ ch ∈ l, ch.toNat ≤ 90) :
    l.map normChar = l := by
  induction l with
  | nil => rfl
  | cons a t ih =>
    have ha : normChar a = a := normChar_fixed a (h a (List.mem_cons_self a t))
    have ht : t.map normChar = t := ih (fun ch hc => h ch (List.mem_cons_of_mem a hc))
    simp [ha, ht]

theorem isEmpty_false_of_ne_nil (l : List Char) (h : l ≠ []) : l.isEmpty = false := by
  cases l with
  | nil => exact absurd rfl h
  | cons a t => rfl

theorem isColChar_false_of_digit (ch : Char) (h : isDigitChar ch = true) :
    isColChar ch = false := by
  rw [isDigitChar_iff] at h
  cases hb : isColChar ch with
  | false => rfl
  | true =>
    rw [isColChar_iff] at hb
    omega

theorem head_not_col_of_digits (l : List Char) (hl : ∀ ch ∈ l, isDigitChar ch = true) :
    ∀ ch, l.head? = some ch → isColChar ch = false := by
  intro ch hch
  cases l with
  | nil => exact absurd hch (by simp)
  | cons a t =>
    rw [List.head?_cons] at hch
    have : a = ch := Option.some.inj hch
    subst this
    exact isColChar_false_of_digit a (hl a (List.mem_cons_self a t))

/-- Core computation of `parseAddr` on a split canonical list. -/
theorem parseAddr_mk_split (L D : List Char)
    (hL : ∀ ch ∈ L, isColChar ch = true) (hD : ∀ ch ∈ D, isDigitChar ch = true)
    (hLne : L ≠ []) (hDne : D ≠ []) (hpos : digitsToNat D ≠ 0) :
    parseAddr ⟨L ++ D⟩ = some (digitsToNat D - 1, lettersToNat L - 1) := by
  have hdata : (String.mk (L ++ D)).data = L ++ D := rfl
  have hbound : ∀ ch ∈ L ++ D, ch.toNat ≤ 90 := by
    intro ch hch
    rcases List.mem_append.mp hch with h | h
    · have := hL ch h
      rw [isColChar_iff] at this
      omega
    · have := hD ch h
      rw [isDigitChar_iff] at this
      omega
  have hmap : (L ++ D).map normChar = L ++ D := map_normChar_id _ hbound
  obtain ⟨htake, hdrop⟩ :=
    takeWhile_append_all isColChar L D hL (head_not_col_of_digits D hD)
  have hLE : L.isEmpty = false := isEmpty_false_of_ne_nil L hLne
  have hDE : D.isEmpty = false := isEmpty_false_of_ne_nil D hDne
  have hall : D.all isDigitChar = true := List.all_eq_true.mpr hD
  simp only [parseAddr, hdata, hmap, htake, hdrop, hLE, hDE, hall,
    Bool.false_eq_true, if_false, if_true, if_neg hpos]

/-- Direction 1 of the address round trip. -/
theorem parseAddr_formatAddr (r c : Nat) : parseAddr (formatAddr r c) = some (r, c) := by
  have h := parseAddr_mk_split (lettersOfNat (c + 1)) (natToDigits (r + 1))
    (lettersOfNat_chars (c + 1)) (natToDigits_chars (r + 1))
    (lettersOfNat_ne_nil _ (Nat.succ_ne_zero c)) (natToDigits_ne_nil _ (Nat.succ_ne_zero r))
    (by rw [digitsToNat_natToDigits]; exact Nat.succ_ne_zero r)
  rw [formatAddr, h, digitsToNat_natToDigits, lettersToNat_lettersOfNat]
  simp

/-- Direction 2 of the address round trip: `format` is a left inverse of
`parse` on canonical addresses. -/
theorem formatAddr_parseAddr (a : String) (hca : addrCanonical a = true)
    (r c : Nat) (hp : parseAddr a = some (r, c)) : formatAddr r c = a := by
  rcases a with ⟨dat⟩
  set L := dat.takeWhile isColChar with hLdef
  set D := dat.dropWhile isColChar with hDdef
  have hsplit : L ++ D = dat := by
    rw [hLdef, hDdef, List.takeWhile_append_dropWhile]
  have hL : ∀ ch ∈ L, isColChar ch = true := by
    intro ch hch
    exact List.mem_takeWhile_imp hch
  simp only [addrCanonical] at hca
  rw [Bool.and_eq_true] at hca
  obtain ⟨hLne', hDgood⟩ := hca
  have hLne : L ≠ [] := by
    intro hnil
    rw [hLdef] at hnil
    rw [hnil] at hLne'
    simp at hLne'
  obtain ⟨d, ds, hDcons⟩ : ∃ d ds, D = d :: ds := by
    cases hDD : D with
    | nil =>
      rw [← hDdef, hDD] at hDgood
      simp at hDgood
    | cons d ds => exact ⟨d, ds, rfl⟩
  rw [← hDdef, hDcons] at hDgood
  rw [Bool.and_eq_true, Bool.and_eq_true] at hDgood
  obtain ⟨⟨hd49, hd57⟩, hall⟩ := hDgood
  rw [decide_eq_true_eq] at hd49 hd57
  have hD : ∀ ch ∈ D, isDigitChar ch = true := by
    rw [hDcons]
    exact fun ch hch => List.all_eq_true.mp hall ch hch
  have hDne : D ≠ [] := by rw [hDcons]; simp
  have hpos : digitsToNat D ≠ 0 := by
    rw [hDcons]
    have := digitsToNat_pos d ds hd49
    omega
  have hcore := parseAddr_mk_split L D hL hD hLne hDne hpos
  rw [hsplit] at hcore
  rw [hp] at hcore
  have hr : r = digitsToNat D - 1 := by
    have := Option.some.inj hcore
    exact (Prod.mk.injEq _ _ _ _).mp this |>.1
  have hc : c = lettersToNat L - 1 := by
    have := Option.some.inj hcore
    exact (Prod.mk.injEq _ _ _ _).mp this |>.2
  have hLpos : 1 ≤ lettersToNat L := by
    rcases L with _ | ⟨x, xs⟩
    · exact absurd rfl hLne
    · exact lettersToNat_pos x xs (hL x (List.mem_cons_self x xs))
  have hDpos : 1 ≤ digitsToNat D := by omega
  rw [formatAddr, hr, hc]
  have h1 : digitsToNat D - 1 + 1 = digitsToNat D := by omega
  have h2 : lettersToNat L - 1 + 1 = lettersToNat L := by omega
  rw [h1, h2]
  rw [lettersOfNat_lettersToNat L hL]
  rw [natToDigits_digitsToNat D hD]
  · rw [hsplit]
  · intro ch hch
    rw [hDcons, List.head?_cons] at hch
    have : d = ch := Option.some.inj hch
    subst this
    exact hd49

/-- Claim C2: the cell-address functions are mutually inverse on the valid
range.  For all `(row, col)` with `row < 1048576` and `col < 16384`,
`parseAddr (formatAddr row col) = some (row, col)`; and for every canonical
address string (uppercase letters followed by a positive integer, base-26
column letters with no zero digit) whose parse lands in that range,
`formatAddr` of the parse reproduces the string. -/
theorem claim_C2_address_roundtrip :
    (∀ r c : Nat, r < 1048576 → c < 16384 → parseAddr (formatAddr r c) = some (r, c)) ∧
    (∀ a : String, addrCanonical a = true → ∀ r c : Nat, parseAddr a = some (r, c) →
      r < 1048576 → c < 16384 → formatAddr r c = a) :=
  ⟨fun r c _ _ => parseAddr_formatAddr r c,
   fun a hca r c hp _ _ => formatAddr_parseAddr a hca r c hp⟩

/-- Concrete instantiation of claim C2 at the `ZZ`/`AAA` boundary and at `B15`. -/
theorem claim_C2_witness :
    parseAddr (formatAddr 14 1) = some (14, 1) ∧ formatAddr 701 701 = "ZZ702" :=
  ⟨claim_C2_address_roundtrip.1 14 1 (by decide) (by decide),
   claim_C2_address_roundtrip.2 "ZZ702" (by decide) 701 701 (by decide) (by decide) (by decide)⟩

/-! ## Error kinds (spec 7) -/

/-- Modelled from the spec: the closed set of error kinds of the engine
(spec section 7); no generic catch-all failure exists. -/
inductive XlsxError where
  | notAnArchive
  | corrupt
  | entryNotFound
  | ioError
  | manifestMissing
  | manifestCorrupt
  | indexOutOfRange
  | sheetNotFound
  | duplicateSheetName
  | invalidAddress
  | emptyTable
  | unsupportedColumnType
  | alreadySaved
deriving DecidableEq, Repr

/-! ## Shared String Table (spec 4.3) -/

/-- First index of `v` in a list of interned values (the reverse lookup). -/
def idxOfVal (v : String) : List String → Option Nat
  | [] => none
  | x :: xs => if x = v then some 0 else (idxOfVal v xs).map (· + 1)

/-- Modelled from the spec: the session's shared string table, an ordered
sequence of unique string values referenced by index. -/
structure SharedStrings where
  values : List String
deriving DecidableEq, Repr

/-- Modelled from the spec: `intern(value) -> index` returns the existing
index if `value` was previously interned in this session, else appends and
returns the new index. -/
def SharedStrings.intern (t : SharedStrings) (v : String) : SharedStrings × Nat :=
  match idxOfVal v t.values with
  | some i => (t, i)
  | none => (⟨t.values ++ [v]⟩, t.values.length)

/-- Modelled from the spec: `get(index) -> string` fails with
`IndexOutOfRange` if `index ≥ current length`. -/
def SharedStrings.get (t : SharedStrings) (i : Nat) : Except XlsxError String :=
  match t.values[i]? with
  | some v => .ok v
  | none => .error .indexOutOfRange

/-- Interning a whole list in order, collecting the issued indices. -/
def internList (t : SharedStrings) : List String → SharedStrings × List Nat
  | [] => (t, [])
  | v :: vs =>
    let p1 := t.intern v
    let p2 := internList p1.1 vs
    (p2.1, p1.2 :: p2.2)

theorem idxOfVal_none_of_not_mem (v : String) (l : List String) (h : v ∉ l) :
    idxOfVal v l = none := by
  induction l with
  | nil => rfl
  | cons x xs ih =>
    have hx : x ≠ v := fun he => h (he ▸ List.mem_cons_self x xs)
    have hxs : v ∉ xs := fun hm => h (List.mem_cons_of_mem x hm)
    simp [idxOfVal, hx, ih hxs]

theorem idxOfVal_append_self (v : String) (l : List String) (h : idxOfVal v l = none) :
    idxOfVal v (l ++ [v]) = some l.length := by
  induction l with
  | nil => simp [idxOfVal]
  | cons x xs ih =>
    simp only [idxOfVal] at h
    by_cases hx : x = v
    · simp [hx] at h
    · simp only [hx, if_false, Option.map_eq_none'] at h
      simp [idxOfVal, hx, ih h]

theorem intern_idem (t : SharedStrings) (v : String) :
    ((t.intern v).1).intern v = ((t.intern v).1, (t.intern v).2) := by
  unfold SharedStrings.intern
  cases hidx : idxOfVal v t.values with
  | some i => simp [hidx]
  | none =>
    simp only [hidx]
    have h2 := idxOfVal_append_self v t.values hidx
    simp [h2]

theorem internList_fresh : ∀ (vs : List String) (t : SharedStrings), vs.Nodup →
    (∀ v ∈ vs, v ∉ t.values) →
    internList t vs = (⟨t.values ++ vs⟩, List.range' t.values.length vs.length) := by
  intro vs
  induction vs with
  | nil =>
    intro t _ _
    simp [internList]
  | cons v vs ih =>
    intro t hnd hfresh
    have hv : v ∉ t.values := hfresh v (List.mem_cons_self v vs)
    have hidx : idxOfVal v t.values = none := idxOfVal_none_of_not_mem v t.values hv
    have hstep : t.intern v = (⟨t.values ++ [v]⟩, t.values.length) := by
      simp [SharedStrings.intern, hidx]
    have hnd2 : vs.Nodup := (List.nodup_cons.mp hnd).2
    have hvnotin : v ∉ vs := (List.nodup_cons.mp hnd).1
    have hfresh2 : ∀ w ∈ vs, w ∉ (t.values ++ [v]) := by
      intro w hw hmem
      rcases List.mem_append.mp hmem with h | h
      · exact hfresh w (List.mem_cons_of_mem v hw) h
      · have : w = v := List.mem_singleton.mp h
        exact hvnotin (this ▸ hw)
    have hih := ih ⟨t.values ++ [v]⟩ hnd2 hfresh2
    simp only [internList, hstep, hih]
    have h1 : t.values ++ [v] ++ vs = t.values ++ v :: vs := by simp
    have h2 : (t.values ++ [v]).length = t.values.length + 1 := by simp
    rw [h1, h2]
    rfl

theorem intern_stable (t : SharedStrings) (v : String) (i : Nat)
    (h : i < t.values.length) : ((t.intern v).1).values[i]? = t.values[i]? := by
  unfold SharedStrings.intern
  cases hidx : idxOfVal v t.values with
  | some j => rfl
  | none =>
    simp only
    rw [List.getElem?_append, if_pos h]

/-- Claim C5: interning on the shared string table is idempotent and
append-only.  Interning the same string twice returns the same index (and
leaves the table unchanged); interning N distinct strings into a fresh
session table yields the increasing indices `0..N-1`; and previously issued
indices keep resolving to the same value after any further intern. -/
theorem claim_C5_shared_string_intern :
    (∀ (t : SharedStrings) (v : String),
      ((t.intern v).1).intern v = ((t.intern v).1, (t.intern v).2)) ∧
    (∀ vs : List String, vs.Nodup →
      (internList ⟨[]⟩ vs).2 = List.range vs.length) ∧
    (∀ (t : SharedStrings) (v : String) (i : Nat), i < t.values.length →
      ((t.intern v).1).values[i]? = t.values[i]?) := by
  refine ⟨intern_idem, ?_, intern_stable⟩
  intro vs hnd
  have h := internList_fresh vs ⟨[]⟩ hnd (by intro v _ hmem; exact absurd hmem (List.not_mem_nil v))
  rw [h]
  simp [List.range_eq_range']

/-- Concrete instantiation of claim C5. -/
theorem claim_C5_witness :
    (internList ⟨[]⟩ ["alpha", "beta", "gamma"]).2 = List.range 3 ∧
    ((SharedStrings.mk ["x"]).intern "y").1.values[0]? = (SharedStrings.mk ["x"]).values[0]? :=
  ⟨claim_C5_shared_string_intern.2.1 ["alpha", "beta", "gamma"] (by decide),
   claim_C5_shared_string_intern.2.2 ⟨["x"]⟩ "y" 0 (by decide)⟩

/-! ## Data model: cells, archive entries, the archive (spec 3) -/

/-- Modelled from the spec: a cell holds one of numeric value, shared-string
reference, inline string, formula text, boolean, or empty (spec section 3).
Numeric content is carried as its literal text, which is all the claims
observe. -/
inductive CellValue where
  | num (lit : String)
  | sharedRef (idx : Nat)
  | inlineStr (s : String)
  | formula (src : String)
  | boolean (b : Bool)
  | empty
deriving DecidableEq, Repr

/-- Modelled from the spec: an archive entry's content, at the granularity the
claims observe: the workbook manifest, the shared-string part and worksheet
bodies are structured; every other part is opaque bytes.  "Byte-identical"
in the claims is modelled as equality of `EntryData` values. -/
inductive EntryData where
  | raw (bytes : List Nat)
  | workbookManifest (sheets : List (String × Nat × String))
  | sharedStringsPart (values : List String)
  | worksheet (cells : List ((Nat × Nat) × CellValue))
deriving DecidableEq, Repr

/-- Modelled from the spec: an archive is an ordered set of named entries
(path to content). -/
structure Archive where
  entries : List (String × EntryData)
deriving DecidableEq, Repr

/-- Path of the workbook manifest entry inside the container. -/
def workbookPath : String := "xl/workbook.xml"

/-- Path of the shared-strings entry inside the container. -/
def sharedStringsPath : String := "xl/sharedStrings.xml"

/-- First entry with the given path, if any. -/
def lookupEntry (a : Archive) (path : String) : Option EntryData :=
  (a.entries.find? (fun e => e.1 = path)).map (·.2)

/-- Modelled from the spec: `scan(archive)` returns the ordered list of
`(sheet_name, sheet_id, entry_path)` from the workbook manifest, without
parsing any sheet body; fails with `ManifestMissing` / `ManifestCorrupt`. -/
def scan (a : Archive) : Except XlsxError (List (String × Nat × String)) :=
  match lookupEntry a workbookPath with
  | none => .error .manifestMissing
  | some (.workbookManifest sheets) => .ok sheets
  | some _ => .error .manifestCorrupt

/-- The boundary operation `scan(path) -> ordered list of sheet names`. -/
def getSheetNames (a : Archive) : Except XlsxError (List String) :=
  (scan a).map (fun sheets => sheets.map (·.1))

/-! ## Pending edit region: coordinate-keyed writes -/

/-- Look up the value last written at `(r, c)` in a write list (later writes
take precedence). -/
def cellLookup (l : List ((Nat × Nat) × CellValue)) (r c : Nat) : Option CellValue :=
  l.foldl (fun acc e => if e.1 = (r, c) then some e.2 else acc) none

/-- The writes of one row of values laid out left to right from `(r, c)`. -/
def rowWrites (r c : Nat) : List CellValue → List ((Nat × Nat) × CellValue)
  | [] => []
  | v :: vs => ((r, c), v) :: rowWrites r (c + 1) vs

/-- The writes of a row-major grid whose top-left cell is `(r, c)`. -/
def gridWrites (r c : Nat) : List (List CellValue) → List ((Nat × Nat) × CellValue)
  | [] => []
  | row :: rest => rowWrites r c row ++ gridWrites (r + 1) c rest

/-- Grid width: the widest row of the grid. -/
def gridWidth (rows : List (List CellValue)) : Nat :=
  rows.foldl (fun acc row => max acc row.length) 0

theorem cellLookup_foldl_init (r c : Nat) : ∀ (l : List ((Nat × Nat) × CellValue))
    (a : Option CellValue),
    l.foldl (fun acc e => if e.1 = (r, c) then some e.2 else acc) a =
      match cellLookup l r c with
      | some v => some v
      | none => a := by
  intro l
  induction l with
  | nil => intro a; rfl
  | cons x l ih =>
    intro a
    simp only [cellLookup, List.foldl_cons]
    rw [ih, ih (if x.1 = (r, c) then some x.2 else none)]
    by_cases hx : x.1 = (r, c)
    · cases cellLookup l r c <;> simp [hx]
    · cases cellLookup l r c <;> simp [hx]

theorem cellLookup_append (l1 l2 : List ((Nat × Nat) × CellValue)) (r c : Nat) :
    cellLookup (l1 ++ l2) r c =
      match cellLookup l2 r c with
      | some v => some v
      | none => cellLookup l1 r c := by
  simp only [cellLookup, List.foldl_append]
  rw [cellLookup_foldl_init]
  rfl

theorem cellLookup_append_of_none (l1 l2 : List ((Nat × Nat) × CellValue)) (r c : Nat)
    (h : cellLookup l2 r c = none) : cellLookup (l1 ++ l2) r c = cellLookup l1 r c := by
  rw [cellLookup_append, h]

theorem cellLookup_cons (x : (Nat × Nat) × CellValue) (l : List ((Nat × Nat) × CellValue))
    (r c : Nat) :
    cellLookup (x :: l) r c =
      match cellLookup l r c with
      | some v => some v
      | none => if x.1 = (r, c) then some x.2 else none := by
  simp only [cellLookup, List.foldl_cons]
  rw [cellLookup_foldl_init]
  rfl

theorem rowWrites_lookup_none : ∀ (vs : List CellValue) (r c r' c' : Nat),
    (r' ≠ r ∨ c' < c ∨ c + vs.length ≤ c') →
    cellLookup (rowWrites r c vs) r' c' = none := by
  intro vs
  induction vs with
  | nil => intro r c r' c' _; rfl
  | cons v vs ih =>
    intro r c r' c' hout
    rw [rowWrites, cellLookup_cons]
    have htail : cellLookup (rowWrites r (c + 1) vs) r' c' = none := by
      apply ih
      rcases hout with h | h | h
      · exact Or.inl h
      · exact Or.inr (Or.inl (by omega))
      · simp only [List.length_cons] at h
        exact Or.inr (Or.inr (by omega))
    rw [htail]
    have hne : ((r, c) : Nat × Nat) ≠ (r', c') := by
      intro he
      have h1 : r = r' := (Prod.mk.injEq _ _ _ _).mp he |>.1
      have h2 : c = c' := (Prod.mk.injEq _ _ _ _).mp he |>.2
      rcases hout with h | h | h
      · exact h (h1.symm)
      · omega
      · simp only [List.length_cons] at h
        omega
    simp [hne]

theorem rowWrites_lookup_hit : ∀ (vs : List CellValue) (r c j : Nat) (hj : j < vs.length),
    cellLookup (rowWrites r c vs) r (c + j) = some (vs.get ⟨j, hj⟩) := by
  intro vs
  induction vs with
  | nil => intro r c j hj; exact absurd hj (by simp)
  | cons v vs ih =>
    intro r c j hj
    rw [rowWrites, cellLookup_cons]
    cases j with
    | zero =>
      have htail : cellLookup (rowWrites r (c + 1) vs) r (c + 0) = none :=
        rowWrites_lookup_none vs r (c + 1) r (c + 0) (Or.inr (Or.inl (by omega)))
      rw [htail]
      simp
    | succ j' =>
      have hj' : j' < vs.length := by
        simp only [List.length_cons] at hj
        omega
      have hc : c + (j' + 1) = (c + 1) + j' := by omega
      rw [hc, ih r (c + 1) j' hj']
      rfl

theorem gridWrites_lookup_none_row : ∀ (rows : List (List CellValue)) (r c r' c' : Nat),
    (r' < r ∨ r + rows.length ≤ r') →
    cellLookup (gridWrites r c rows) r' c' = none := by
  intro rows
  induction rows with
  | nil => intro r c r' c' _; rfl
  | cons row rest ih =>
    intro r c r' c' hout
    rw [gridWrites]
    have hright : cellLookup (gridWrites (r + 1) c rest) r' c' = none := by
      apply ih
      rcases hout with h | h
      · exact Or.inl (by omega)
      · simp only [List.length_cons] at h
        exact Or.inr (by omega)
    rw [cellLookup_append_of_none _ _ _ _ hright]
    apply rowWrites_lookup_none
    left
    rcases hout with h | h
    · omega
    · simp only [List.length_cons] at h
      omega

theorem gridWrites_lookup_none_col : ∀ (rows : List (List CellValue)) (r c r' c' : Nat),
    (c' < c ∨ ∀ row ∈ rows, c + row.length ≤ c') →
    cellLookup (gridWrites r c rows) r' c' = none := by
  intro rows
  induction rows with
  | nil => intro r c r' c' _; rfl
  | cons row rest ih =>
    intro r c r' c' hout
    rw [gridWrites]
    have hright : cellLookup (gridWrites (r + 1) c rest) r' c' = none := by
      apply ih
      rcases hout with h | h
      · exact Or.inl h
      · exact Or.inr (fun rw hrw => h rw (List.mem_cons_of_mem row hrw))
    rw [cellLookup_append_of_none _ _ _ _ hright]
    apply rowWrites_lookup_none
    rcases hout with h | h
    · exact Or.inr (Or.inl h)
    · exact Or.inr (Or.inr (h row (List.mem_cons_self row rest)))

theorem gridWrites_lookup_hit : ∀ (rows : List (List CellValue)) (r c i : Nat)
    (hi : i < rows.length) (j : Nat) (hj : j < (rows.get ⟨i, hi⟩).length),
    cellLookup (gridWrites r c rows) (r + i) (c + j) =
      some ((rows.get ⟨i, hi⟩).get ⟨j, hj⟩) := by
  intro rows
  induction rows with
  | nil => intro r c i hi; exact absurd hi (by simp)
  | cons row rest ih =>
    intro r c i hi j hj
    rw [gridWrites]
    cases i with
    | zero =>
      have hright : cellLookup (gridWrites (r + 1) c rest) (r + 0) (c + j) = none :=
        gridWrites_lookup_none_row rest (r + 1) c (r + 0) (c + j) (Or.inl (by omega))
      rw [cellLookup_append_of_none _ _ _ _ hright]
      exact rowWrites_lookup_hit row r c j hj
    | succ i' =>
      have hi' : i' < rest.length := by
        simp only [List.length_cons] at hi
        omega
      have hr : r + (i' + 1) = (r + 1) + i' := by omega
      rw [cellLookup_append]
      rw [hr, ih (r + 1) c i' hi' j hj]
      rfl

/-! ## Sheet Editor (spec 4.5) and session plumbing -/

/-- Modelled from the spec: the editor lifecycle state machine
`Opened` (extent known, no pending writes) to `Dirty` (at least one pending
write) to `Saved` (terminal). -/
inductive EditorState where
  | opened
  | dirty
  | saved
deriving DecidableEq, Repr

/-- Modelled from the spec: one per-sheet editor session: the archive, the
edited sheet's entry path, the lifecycle state, the tracked extent, the
parsed original cells (borrowed read-only), the pending edit region, and
the session shared-string table. -/
structure XlsxEditor where
  archive : Archive
  sheetPath : String
  state : EditorState
  extent : Option (Nat × Nat)
  origCells : List ((Nat × Nat) × CellValue)
  pending : List ((Nat × Nat) × CellValue)
  sst : SharedStrings
  sstDirty : Bool
deriving DecidableEq, Repr

/-- Extent of a parsed sheet body: max row and max column with content. -/
def computeExtent (cells : List ((Nat × Nat) × CellValue)) : Option (Nat × Nat) :=
  cells.foldl (fun acc e =>
    match acc with
    | none => some e.1
    | some (mr, mc) => some (max mr e.1.1, max mc e.1.2)) none

/-- Session shared strings loaded once from the archive (empty if absent). -/
def loadSst (a : Archive) : SharedStrings :=
  match lookupEntry a sharedStringsPath with
  | some (.sharedStringsPart vs) => ⟨vs⟩
  | _ => ⟨[]⟩

/-- Row directly below the current extent. -/
def XlsxEditor.nextRow (e : XlsxEditor) : Nat :=
  match e.extent with
  | none => 0
  | some (mr, _) => mr + 1

/-- The merged view of the sheet: original cells overlaid by the pending edit
region (pending wins; among pending writes the latest wins).  This is also
exactly what `save` serializes for the dirty sheet. -/
def XlsxEditor.cellAt (e : XlsxEditor) (r c : Nat) : Option CellValue :=
  cellLookup (e.origCells ++ e.pending) r c

/-- Modelled from the spec: `append_row(values)` writes at
row = (current max used row) + 1, columns starting at 0, advances the
tracked extent and moves the editor to `Dirty`; fails with `AlreadySaved`
after save. -/
def XlsxEditor.append_row (e : XlsxEditor) (values : List CellValue) :
    Except XlsxError XlsxEditor :=
  if e.state = .saved then .error .alreadySaved
  else
    let newExt :=
      match e.extent with
      | none => (0, values.length - 1)
      | some (mr, mc) => (mr + 1, max mc (values.length - 1))
    .ok { e with
      pending := e.pending ++ rowWrites e.nextRow 0 values,
      extent := some newExt,
      state := .dirty }

/-- Shared write path of the anchored/table operations: validates the grid
(`EmptyTable` on zero rows or zero columns) before touching anything, then
adds the rectangle's writes and extends the extent to cover its
bottom-right corner. -/
def XlsxEditor.writeGrid (e : XlsxEditor) (rows : List (List CellValue)) (r0 c0 : Nat) :
    Except XlsxError XlsxEditor :=
  if rows.isEmpty then .error .emptyTable
  else if gridWidth rows = 0 then .error .emptyTable
  else
    let br := (r0 + rows.length - 1, c0 + gridWidth rows - 1)
    let newExt :=
      match e.extent with
      | none => br
      | some (mr, mc) => (max mr br.1, max mc br.2)
    .ok { e with
      pending := e.pending ++ gridWrites r0 c0 rows,
      extent := some newExt,
      state := .dirty }

/-- Modelled from the spec: `append_table_at(rows, anchor)` writes the grid
with its top-left cell at `anchor`, row-major, overwriting any pending or
original content in that rectangle; fails with `InvalidAddress` if the
anchor cannot be parsed, `EmptyTable` on a zero-row or zero-column grid,
and `AlreadySaved` after save; validation precedes any mutation. -/
def XlsxEditor.append_table_at (e : XlsxEditor) (rows : List (List CellValue))
    (anchor : String) : Except XlsxError XlsxEditor :=
  if e.state = .saved then .error .alreadySaved
  else
    match parseAddr anchor with
    | none => .error .invalidAddress
    | some rc => e.writeGrid rows rc.1 rc.2

/-- Modelled from the spec: `with_table_source(source, anchor_or_none)`:
the source is the ingestion adapter's normalized row-major grid; anchor
`none` means append starting at the row after the current extent, column 0;
otherwise behaves as `append_table_at`. -/
def XlsxEditor.with_table_source (e : XlsxEditor) (source : List (List CellValue))
    (anchor : Option String) : Except XlsxError XlsxEditor :=
  if e.state = .saved then .error .alreadySaved
  else
    match anchor with
    | some a =>
      match parseAddr a with
      | none => .error .invalidAddress
      | some rc => e.writeGrid source rc.1 rc.2
    | none => e.writeGrid source e.nextRow 0

/-- Session-level intern reached through an editor (the ingestion adapter
uses it when coercing string cells); marks the shared-strings part dirty so
that save regenerates it. -/
def XlsxEditor.internString (e : XlsxEditor) (v : String) : XlsxEditor × Nat :=
  let p := e.sst.intern v
  ({ e with sst := p.1, sstDirty := true }, p.2)

/-- Replace the content of the entry at `path` (first occurrence wins on
lookup, so all occurrences are replaced). -/
def replaceEntry (a : Archive) (path : String) (d : EntryData) : Archive :=
  ⟨a.entries.map (fun ent => if ent.1 = path then (ent.1, d) else ent)⟩

/-- Modelled from the spec: `add_worksheet(name)` creates a new empty sheet
registered in the workbook manifest, appended after all existing sheets;
fails with `DuplicateSheetName` on a case-sensitive collision and with
`AlreadySaved` after save.  Registration is persisted into the session's
archive immediately: the binding test `add_ws.py` re-scans the file with a
fresh scanner, without an intervening save, and sees the new sheets. -/
def XlsxEditor.add_worksheet (e : XlsxEditor) (name : String) :
    Except XlsxError XlsxEditor :=
  if e.state = .saved then .error .alreadySaved
  else
    match scan e.archive with
    | .error err => .error err
    | .ok sheets =>
      if sheets.any (fun s => s.1 = name) then .error .duplicateSheetName
      else
        let sid := sheets.length + 1
        let path := "xl/worksheets/sheetNEW" ++ Nat.repr sid ++ ".xml"
        let a2 := replaceEntry e.archive workbookPath
          (.workbookManifest (sheets ++ [(name, sid, path)]))
        .ok { e with archive := ⟨a2.entries ++ [(path, .worksheet [])]⟩ }

/-- Modelled from the spec (4.7): save copies every entry untouched by an
edit verbatim (name and order preserved), regenerates the dirty sheet body
by merging the original cells with the pending edit region (pending wins by
coordinate), regenerates the shared-strings entry when strings were
interned this session, and moves the editor to the terminal `Saved` state. -/
def XlsxEditor.save (e : XlsxEditor) : Except XlsxError (Archive × XlsxEditor) :=
  if e.state = .saved then .error .alreadySaved
  else
    let out : Archive := ⟨e.archive.entries.map (fun ent =>
      if ent.1 = e.sheetPath then
        if e.pending.isEmpty then ent
        else (ent.1, .worksheet (e.origCells ++ e.pending))
      else if ent.1 = sharedStringsPath then
        if e.sstDirty then (ent.1, .sharedStringsPart e.sst.values) else ent
      else ent)⟩
    .ok (out, { e with state := .saved })

/-- Modelled from the spec: the direct editor constructor
(`PyXlsxEditor(path, sheet_name)`): scan the manifest, locate the sheet,
parse its body into original cells and extent, load the shared strings. -/
def openEditor (a : Archive) (name : String) : Except XlsxError XlsxEditor :=
  match scan a with
  | .error err => .error err
  | .ok sheets =>
    match sheets.find? (fun s => s.1 = name) with
    | none => .error .sheetNotFound
    | some s =>
      match lookupEntry a s.2.2 with
      | some (.worksheet cells) =>
        .ok { archive := a, sheetPath := s.2.2, state := .opened,
              extent := computeExtent cells, origCells := cells,
              pending := [], sst := loadSst a, sstDirty := false }
      | some _ => .error .corrupt
      | none => .error .entryNotFound

/-- The workbook scanner handle of the binding layer (`PyXlsxScanner`):
the archive plus its scanned manifest, cached. -/
structure XlsxScanner where
  archive : Archive
  sheets : List (String × Nat × String)
deriving DecidableEq, Repr

/-- `PyXlsxScanner(path)`: scan once and cache the manifest. -/
def mkXlsxScanner (a : Archive) : Except XlsxError XlsxScanner :=
  match scan a with
  | .error err => .error err
  | .ok sheets => .ok ⟨a, sheets⟩

/-- `scanner.get_sheets()`: the cached ordered sheet names. -/
def XlsxScanner.get_sheets (s : XlsxScanner) : List String :=
  s.sheets.map (·.1)

/-- `scanner.open_editor(sheet_name)`: build the editor from the cached
manifest (`SheetNotFound` for unknown names). -/
def XlsxScanner.open_editor (s : XlsxScanner) (name : String) :
    Except XlsxError XlsxEditor :=
  match s.sheets.find? (fun t => t.1 = name) with
  | none => .error .sheetNotFound
  | some t =>
    match lookupEntry s.archive t.2.2 with
    | some (.worksheet cells) =>
      .ok { archive := s.archive, sheetPath := t.2.2, state := .opened,
            extent := computeExtent cells, origCells := cells,
            pending := [], sst := loadSst s.archive, sstDirty := false }
    | some _ => .error .corrupt
    | none => .error .entryNotFound

/-- One observable edit call on an editor. -/
inductive EditOp where
  | row (values : List CellValue)
  | tableAt (rows : List (List CellValue)) (anchor : String)
  | tableSource (source : List (List CellValue)) (anchor : Option String)
  | addSheet (name : String)
deriving DecidableEq, Repr

/-- Apply one edit call. -/
def applyOp (e : XlsxEditor) : EditOp → Except XlsxError XlsxEditor
  | .row vs => e.append_row vs
  | .tableAt rows anchor => e.append_table_at rows anchor
  | .tableSource src anchor => e.with_table_source src anchor
  | .addSheet name => e.add_worksheet name

/-- Apply a sequence of edit calls, then save: the observable outcome of an
editor session. -/
def runOps : List EditOp → XlsxEditor → Except XlsxError (Archive × XlsxEditor)
  | [], e => e.save
  | op :: rest, e =>
    match applyOp e op with
    | .error err => .error err
    | .ok e2 => runOps rest e2

/-! ## Saved-state and validation behaviour -/

theorem append_row_saved (e : XlsxEditor) (h : e.state = .saved) (vs : List CellValue) :
    e.append_row vs = .error .alreadySaved := by
  rw [XlsxEditor.append_row, if_pos h]

theorem append_table_at_saved (e : XlsxEditor) (h : e.state = .saved)
    (rows : List (List CellValue)) (anchor : String) :
    e.append_table_at rows anchor = .error .alreadySaved := by
  rw [XlsxEditor.append_table_at, if_pos h]

theorem with_table_source_saved (e : XlsxEditor) (h : e.state = .saved)
    (src : List (List CellValue)) (anchor : Option String) :
    e.with_table_source src anchor = .error .alreadySaved := by
  rw [XlsxEditor.with_table_source.eq_def, if_pos h]

theorem add_worksheet_saved (e : XlsxEditor) (h : e.state = .saved) (name : String) :
    e.add_worksheet name = .error .alreadySaved := by
  rw [XlsxEditor.add_worksheet, if_pos h]

theorem save_ok_dest (e : XlsxEditor) (out : Archive) (e2 : XlsxEditor)
    (h : e.save = .ok (out, e2)) : e2 = { e with state := .saved } := by
  rw [XlsxEditor.save] at h
  by_cases hs : e.state = .saved
  · rw [if_pos hs] at h
    exact Except.noConfusion h
  · rw [if_neg hs] at h
    simp only [Except.ok.injEq, Prod.mk.injEq] at h
    exact h.2.symm

/-- Claim C8: the editor follows the state machine Opened to Dirty to Saved:
after a successful save the editor is in the terminal `Saved` state and every
subsequent mutating call (`append_row`, `append_table_at`,
`with_table_source`, `add_worksheet`) fails with `AlreadySaved`; no write
ever succeeds on a saved editor. -/
theorem claim_C8_saved_is_terminal :
    ∀ (e : XlsxEditor) (out : Archive) (e2 : XlsxEditor),
      e.save = .ok (out, e2) →
      e2.state = .saved ∧
      (∀ vs, e2.append_row vs = .error .alreadySaved) ∧
      (∀ rows anchor, e2.append_table_at rows anchor = .error .alreadySaved) ∧
      (∀ src anchor, e2.with_table_source src anchor = .error .alreadySaved) ∧
      (∀ name, e2.add_worksheet name = .error .alreadySaved) := by
  intro e out e2 hsave
  have he2 := save_ok_dest e out e2 hsave
  have hst : e2.state = .saved := by rw [he2]
  exact ⟨hst,
    fun vs => append_row_saved e2 hst vs,
    fun rows anchor => append_table_at_saved e2 hst rows anchor,
    fun src anchor => with_table_source_saved e2 hst src anchor,
    fun name => add_worksheet_saved e2 hst name⟩

/-- A minimal one-sheet archive used by the concrete witnesses. -/
def wbA : Archive :=
  ⟨[(workbookPath, .workbookManifest [("Sheet1", 1, "xl/worksheets/sheet1.xml")]),
    ("xl/worksheets/sheet1.xml", .worksheet [((0, 0), .num "1")]),
    (sharedStringsPath, .sharedStringsPart ["hi"]),
    ("docProps/app.xml", .raw [1, 2, 3])]⟩

/-- The editor `openEditor wbA "Sheet1"` evaluates to. -/
def wbE : XlsxEditor :=
  { archive := wbA, sheetPath := "xl/worksheets/sheet1.xml", state := .opened,
    extent := some (0, 0), origCells := [((0, 0), .num "1")],
    pending := [], sst := ⟨["hi"]⟩, sstDirty := false }

/-- The witness editor after a successful save. -/
def wbESaved : XlsxEditor :=
  { archive := wbA, sheetPath := "xl/worksheets/sheet1.xml", state := .saved,
    extent := some (0, 0), origCells := [((0, 0), .num "1")],
    pending := [], sst := ⟨["hi"]⟩, sstDirty := false }

/-- Concrete instantiation of claim C8: saving the witness editor yields a
saved editor on which `append_row` fails. -/
theorem claim_C8_witness :
    wbESaved.state = .saved ∧
    wbESaved.append_row [.num "2"] = .error .alreadySaved :=
  have h := claim_C8_saved_is_terminal wbE wbA wbESaved (by rfl)
  ⟨h.1, h.2.1 [.num "2"]⟩

/-- Claim C6: `append_table_at` fails with `InvalidAddress` when the anchor
cannot be parsed and with `EmptyTable` when the grid has zero rows or zero
columns; in both cases the call returns the error and produces no successor
editor state, so the pending edit region, the tracked extent and the archive
are untouched. -/
theorem claim_C6_append_table_validation :
    ∀ (e : XlsxEditor) (rows : List (List CellValue)) (anchor : String),
      e.state ≠ .saved →
      (parseAddr anchor = none →
        e.append_table_at rows anchor = .error .invalidAddress) ∧
      (∀ rc, parseAddr anchor = some rc → (rows = [] ∨ gridWidth rows = 0) →
        e.append_table_at rows anchor = .error .emptyTable) := by
  intro e rows anchor hs
  constructor
  · intro hp
    rw [XlsxEditor.append_table_at, if_neg hs, hp]
  · intro rc hp hempty
    rw [XlsxEditor.append_table_at, if_neg hs, hp]
    show e.writeGrid rows rc.1 rc.2 = .error .emptyTable
    rw [XlsxEditor.writeGrid]
    rcases hempty with h | h
    · rw [if_pos (by rw [h]; rfl)]
    · by_cases hnil : rows.isEmpty
      · rw [if_pos hnil]
      · rw [if_neg hnil, if_pos h]

/-- Concrete instantiation of claim C6: an unparseable anchor and an empty
grid on the witness editor. -/
theorem claim_C6_witness :
    wbE.append_table_at [[.num "9"]] "@@" = .error .invalidAddress ∧
    wbE.append_table_at [] "B15" = .error .emptyTable :=
  ⟨(claim_C6_append_table_validation wbE [[.num "9"]] "@@" (by decide)).1 (by decide),
   (claim_C6_append_table_validation wbE [] "B15" (by decide)).2
     (14, 1) (by decide) (Or.inl rfl)⟩

/-! ## Worksheet addition and the workbook manifest -/
theorem find?_replace_hit (p : String) (d : EntryData) :
    ∀ (l : List (String × EntryData)),
      (∃ ent, l.find? (fun e => e.1 = p) = some ent) →
      (l.map (fun x => if x.1 = p then (x.1, d) else x)).find? (fun e => e.1 = p) =
        some (p, d) := by
  intro l
  induction l with
  | nil =>
    intro h
    obtain ⟨ent, hent⟩ := h
    simp at hent
  | cons x l ih =>
    intro h
    by_cases hx : x.1 = p
    · simp only [List.map_cons, if_pos hx]
      rw [List.find?_cons_of_pos _ (by simp [hx])]
      simp [hx]
    · simp only [List.map_cons, if_neg hx]
      rw [List.find?_cons_of_neg _ (by simp [hx])]
      apply ih
      obtain ⟨ent, hent⟩ := h
      rw [List.find?_cons_of_neg _ (by simp [hx])] at hent
      exact ⟨ent, hent⟩

theorem scan_find (a : Archive) (sheets : List (String × Nat × String))
    (h : scan a = .ok sheets) :
    ∃ ent, a.entries.find? (fun e => e.1 = workbookPath) = some ent ∧
      ent.2 = .workbookManifest sheets := by
  rw [scan] at h
  cases hlook : lookupEntry a workbookPath with
  | none => rw [hlook] at h; exact Except.noConfusion h
  | some d =>
    rw [hlook] at h
    rw [lookupEntry] at hlook
    obtain ⟨ent, hent, hd⟩ := Option.map_eq_some'.mp hlook
    cases d with
    | workbookManifest s2 =>
      have hs2 : s2 = sheets := Except.ok.inj h
      exact ⟨ent, hent, by rw [hd, hs2]⟩
    | raw b => exact Except.noConfusion h
    | sharedStringsPart v => exact Except.noConfusion h
    | worksheet c => exact Except.noConfusion h

theorem add_worksheet_fresh (e : XlsxEditor) (name : String)
    (sheets : List (String × Nat × String))
    (hs : e.state ≠ .saved) (hscan : scan e.archive = .ok sheets)
    (hfresh : sheets.any (fun s => s.1 = name) = false) :
    ∃ e2, e.add_worksheet name = .ok e2 ∧
      scan e2.archive = .ok (sheets ++
        [(name, sheets.length + 1,
          "xl/worksheets/sheetNEW" ++ Nat.repr (sheets.length + 1) ++ ".xml")]) := by
  refine ⟨{ e with archive :=
    ⟨(replaceEntry e.archive workbookPath
        (.workbookManifest (sheets ++
          [(name, sheets.length + 1,
            "xl/worksheets/sheetNEW" ++ Nat.repr (sheets.length + 1) ++ ".xml")]))).entries ++
      [("xl/worksheets/sheetNEW" ++ Nat.repr (sheets.length + 1) ++ ".xml",
        .worksheet [])]⟩ }, ?_, ?_⟩
  · rw [XlsxEditor.add_worksheet, if_neg hs, hscan]
    dsimp only
    rw [hfresh]
    rfl
  · have hex : ∃ ent, e.archive.entries.find? (fun x => x.1 = workbookPath) = some ent := by
      obtain ⟨ent, hent, _⟩ := scan_find e.archive sheets hscan
      exact ⟨ent, hent⟩
    rw [scan, lookupEntry]
    simp only [replaceEntry]
    rw [List.find?_append]
    rw [find?_replace_hit workbookPath _ e.archive.entries hex]
    rfl

/-- Claim C7: `add_worksheet(name)` fails with `DuplicateSheetName` (and
changes nothing, no successor state being produced) when `name` equals an
existing sheet name case-sensitively; with a fresh name the new sheet is
registered in the manifest appended after all existing sheets. -/
theorem claim_C7_add_worksheet_names :
    ∀ (e : XlsxEditor) (name : String) (sheets : List (String × Nat × String)),
      e.state ≠ .saved →
      scan e.archive = .ok sheets →
      ((∃ s ∈ sheets, s.1 = name) →
        e.add_worksheet name = .error .duplicateSheetName) ∧
      ((∀ s ∈ sheets, s.1 ≠ name) →
        ∃ e2, e.add_worksheet name = .ok e2 ∧
          getSheetNames e2.archive = .ok (sheets.map (·.1) ++ [name])) := by
  intro e name sheets hs hscan
  constructor
  · intro hdup
    have hany : sheets.any (fun s => s.1 = name) = true := by
      rw [List.any_eq_true]
      obtain ⟨s, hmem, hname⟩ := hdup
      exact ⟨s, hmem, by simp [hname]⟩
    rw [XlsxEditor.add_worksheet, if_neg hs, hscan]
    dsimp only
    rw [hany]
    rfl
  · intro hfr
    have hany : sheets.any (fun s => s.1 = name) = false := by
      rw [List.any_eq_false]
      intro s hmem
      simp [hfr s hmem]
    obtain ⟨e2, hok, hscan2⟩ := add_worksheet_fresh e name sheets hs hscan hany
    refine ⟨e2, hok, ?_⟩
    rw [getSheetNames, hscan2]
    simp [Except.map]

/-- Concrete instantiation of claim C7: duplicate and fresh names on the
witness editor. -/
theorem claim_C7_witness :
    wbE.add_worksheet "Sheet1" = .error .duplicateSheetName ∧
    ∃ e2, wbE.add_worksheet "NewSheet" = .ok e2 ∧
      getSheetNames e2.archive = .ok ["Sheet1", "NewSheet"] :=
  ⟨(claim_C7_add_worksheet_names wbE "Sheet1"
      [("Sheet1", 1, "xl/worksheets/sheet1.xml")] (by decide) (by rfl)).1
      (by decide),
   (claim_C7_add_worksheet_names wbE "NewSheet"
      [("Sheet1", 1, "xl/worksheets/sheet1.xml")] (by decide) (by rfl)).2
      (by decide)⟩

/-- Claim C9: `add_worksheet(name)` persists the new worksheet into the
session's archive immediately, with no intervening save: scanning the
archive afterwards reports the new sheet name appended to all pre-existing
sheet names (as asserted by the binding test `add_ws.py`). -/
theorem claim_C9_add_worksheet_immediate :
    ∀ (e : XlsxEditor) (name : String) (names : List String),
      e.state ≠ .saved →
      getSheetNames e.archive = .ok names →
      name ∉ names →
      ∃ e2, e.add_worksheet name = .ok e2 ∧
        getSheetNames e2.archive = .ok (names ++ [name]) := by
  intro e name names hs hnames hnot
  rw [getSheetNames] at hnames
  cases hscan : scan e.archive with
  | error err =>
    rw [hscan] at hnames
    simp only [Except.map] at hnames
    exact Except.noConfusion hnames
  | ok sheets =>
    rw [hscan] at hnames
    simp only [Except.map] at hnames
    have hmap : sheets.map (·.1) = names := Except.ok.inj hnames
    have hany : sheets.any (fun s => s.1 = name) = false := by
      rw [List.any_eq_false]
      intro s hmem
      have hin : s.1 ∈ names := by
        rw [← hmap]
        exact List.mem_map_of_mem _ hmem
      simp only [decide_eq_true_eq]
      intro he
      exact hnot (he ▸ hin)
    obtain ⟨e2, hok, hscan2⟩ := add_worksheet_fresh e name sheets hs hscan hany
    refine ⟨e2, hok, ?_⟩
    rw [getSheetNames, hscan2]
    simp [Except.map, hmap]

/-- Concrete instantiation of claim C9. -/
theorem claim_C9_witness :
    ∃ e2, wbE.add_worksheet "Added" = .ok e2 ∧
      getSheetNames e2.archive = .ok ["Sheet1", "Added"] :=
  claim_C9_add_worksheet_immediate wbE "Added" ["Sheet1"] (by decide) (by rfl)
    (by decide)

/-! ## Editor construction equivalence and zero-edit save -/

theorem openEditor_eq_scanner (a : Archive) (name : String) :
    openEditor a name = (mkXlsxScanner a) >>= (fun s => s.open_editor name) := by
  rw [openEditor, mkXlsxScanner]
  cases hscan : scan a with
  | error err => rfl
  | ok sheets => rfl

/-- Claim C10: an editor built directly (`PyXlsxEditor(path, sheet_name)`,
here `openEditor`) is observationally equivalent to one obtained through
`PyXlsxScanner(path).open_editor(sheet_name)`: any sequence of edit calls
followed by save yields the same output (or the same error) from either
construction, on every archive and sheet name. -/
theorem claim_C10_construction_equivalence :
    ∀ (a : Archive) (name : String) (ops : List EditOp),
      (openEditor a name >>= runOps ops) =
      ((mkXlsxScanner a >>= fun s => s.open_editor name) >>= runOps ops) := by
  intro a name ops
  rw [openEditor_eq_scanner]

theorem openEditor_fresh (a : Archive) (name : String) (e : XlsxEditor)
    (h : openEditor a name = .ok e) :
    e.archive = a ∧ e.pending = [] ∧ e.sstDirty = false ∧ e.state = .opened := by
  rw [openEditor] at h
  cases hscan : scan a with
  | error err =>
    rw [hscan] at h
    exact Except.noConfusion h
  | ok sheets =>
    rw [hscan] at h
    dsimp only at h
    cases hfind : sheets.find? (fun s => s.1 = name) with
    | none =>
      rw [hfind] at h
      exact Except.noConfusion h
    | some s =>
      rw [hfind] at h
      dsimp only at h
      cases hlook : lookupEntry a s.2.2 with
      | none =>
        rw [hlook] at h
        exact Except.noConfusion h
      | some d =>
        rw [hlook] at h
        cases d with
        | worksheet cells =>
          have he := Except.ok.inj h
          rw [← he]
          exact ⟨rfl, rfl, rfl, rfl⟩
        | raw b => exact Except.noConfusion h
        | workbookManifest s2 => exact Except.noConfusion h
        | sharedStringsPart v => exact Except.noConfusion h

theorem list_map_self {α : Type} (f : α → α) :
    ∀ l : List α, (∀ x ∈ l, f x = x) → l.map f = l := by
  intro l
  induction l with
  | nil => intro _; rfl
  | cons x l ih =>
    intro h
    have hx : f x = x := h x (List.mem_cons_self x l)
    have hl := ih (fun y hy => h y (List.mem_cons_of_mem x hy))
    simp [hx, hl]

theorem save_no_edits (e : XlsxEditor) (hs : e.state ≠ .saved) (hp : e.pending = [])
    (hd : e.sstDirty = false) (out : Archive) (e2 : XlsxEditor)
    (h : e.save = .ok (out, e2)) : out = e.archive := by
  rw [XlsxEditor.save, if_neg hs] at h
  simp only [Except.ok.injEq, Prod.mk.injEq] at h
  obtain ⟨h1, _⟩ := h
  rw [← h1]
  have hmap := list_map_self
    (fun ent : String × EntryData =>
      if ent.1 = e.sheetPath then
        if e.pending.isEmpty then ent
        else (ent.1, .worksheet (e.origCells ++ e.pending))
      else if ent.1 = sharedStringsPath then
        if e.sstDirty then (ent.1, .sharedStringsPart e.sst.values) else ent
      else ent)
    e.archive.entries
    (by
      intro x _
      dsimp only
      by_cases h1 : x.1 = e.sheetPath
      · rw [if_pos h1, if_pos (by rw [hp]; rfl)]
      · by_cases h2 : x.1 = sharedStringsPath
        · rw [if_neg h1, if_pos h2, if_neg (by simp [hd])]
        · rw [if_neg h1, if_neg h2])
  rw [hmap]

/-- Claim C1: saving a session opened on any archive with zero edits yields
an output archive in which every entry of the original reappears with
identical content, and whose path set is a superset of the input's. -/
theorem claim_C1_zero_edit_save :
    ∀ (a : Archive) (name : String) (e : XlsxEditor) (out : Archive) (e2 : XlsxEditor),
      openEditor a name = .ok e →
      e.save = .ok (out, e2) →
      (∀ ent ∈ a.entries, ent ∈ out.entries) ∧
      (∀ p : String, (∃ d, (p, d) ∈ a.entries) → ∃ d, (p, d) ∈ out.entries) := by
  intro a name e out e2 hopen hsave
  obtain ⟨harch, hp, hd, hst⟩ := openEditor_fresh a name e hopen
  have hs : e.state ≠ .saved := by
    rw [hst]
    intro hcontra
    exact EditorState.noConfusion hcontra
  have hout : out = e.archive := save_no_edits e hs hp hd out e2 hsave
  rw [hout, harch]
  exact ⟨fun ent h => h, fun p h => h⟩

/-- Concrete instantiation of claim C1 on the witness archive. -/
theorem claim_C1_witness :
    (∀ ent ∈ wbA.entries, ent ∈ wbA.entries) ∧
    (∀ p : String, (∃ d, (p, d) ∈ wbA.entries) → ∃ d, (p, d) ∈ wbA.entries) :=
  claim_C1_zero_edit_save wbA "Sheet1" wbE wbA wbESaved (by rfl) (by rfl)

/-! ## Sequential row appends (claim C3) -/

/-- A sequence of `append_row` calls in order. -/
def appendRows (e : XlsxEditor) : List (List CellValue) → Except XlsxError XlsxEditor
  | [] => .ok e
  | vs :: rest =>
    match e.append_row vs with
    | .error err => .error err
    | .ok e2 => appendRows e2 rest

theorem rowWrites_mem_row : ∀ (vs : List CellValue) (r c : Nat)
    (x : (Nat × Nat) × CellValue), x ∈ rowWrites r c vs → x.1.1 = r := by
  intro vs
  induction vs with
  | nil => intro r c x hx; simp [rowWrites] at hx
  | cons v vs ih =>
    intro r c x hx
    rw [rowWrites] at hx
    rcases List.mem_cons.mp hx with h | h
    · rw [h]
    · exact ih r (c + 1) x h

theorem append_row_ok (e : XlsxEditor) (vs : List CellValue) (mr mc : Nat)
    (hs : e.state ≠ .saved) (hext : e.extent = some (mr, mc)) :
    e.append_row vs = .ok { e with
      pending := e.pending ++ rowWrites (mr + 1) 0 vs,
      extent := some (mr + 1, max mc (vs.length - 1)),
      state := .dirty } := by
  have hnr : e.nextRow = mr + 1 := by rw [XlsxEditor.nextRow, hext]
  rw [XlsxEditor.append_row, if_neg hs, hnr, hext]

theorem appendRows_spec :
    ∀ (rs : List (List CellValue)) (e : XlsxEditor) (mr mc : Nat),
      e.state ≠ .saved →
      e.extent = some (mr, mc) →
      (∀ x ∈ e.origCells ++ e.pending, x.1.1 ≤ mr) →
      ∃ e2, appendRows e rs = .ok e2 ∧
        e2.origCells = e.origCells ∧
        e2.archive = e.archive ∧
        (∃ mc2, e2.extent = some (mr + rs.length, mc2)) ∧
        (∀ x ∈ e2.origCells ++ e2.pending, x.1.1 ≤ mr + rs.length) ∧
        (∀ r c, r ≤ mr → e2.cellAt r c = e.cellAt r c) ∧
        (∀ k (hk : k < rs.length) (j : Nat) (hj : j < (rs.get ⟨k, hk⟩).length),
          e2.cellAt (mr + 1 + k) j = some ((rs.get ⟨k, hk⟩).get ⟨j, hj⟩)) := by
  intro rs
  induction rs with
  | nil =>
    intro e mr mc hs hext hinv
    refine ⟨e, rfl, rfl, rfl, ⟨mc, by simpa using hext⟩, by simpa using hinv,
      fun r c _ => rfl, ?_⟩
    intro k hk
    exact absurd hk (by simp)
  | cons vs rest ih =>
    intro e mr mc hs hext hinv
    set e1 : XlsxEditor := { e with
      pending := e.pending ++ rowWrites (mr + 1) 0 vs,
      extent := some (mr + 1, max mc (vs.length - 1)),
      state := .dirty } with he1
    have hrow : e.append_row vs = .ok e1 := append_row_ok e vs mr mc hs hext
    have hs1 : e1.state ≠ .saved := by
      intro hco
      rw [he1] at hco
      exact EditorState.noConfusion hco
    have hext1 : e1.extent = some (mr + 1, max mc (vs.length - 1)) := by rw [he1]
    have hinv1 : ∀ x ∈ e1.origCells ++ e1.pending, x.1.1 ≤ mr + 1 := by
      intro x hx
      rw [he1] at hx
      dsimp only at hx
      rcases List.mem_append.mp hx with h | h
      · have := hinv x (List.mem_append_left _ h)
        omega
      · rcases List.mem_append.mp h with h2 | h2
        · have := hinv x (List.mem_append_right _ h2)
          omega
        · have := rowWrites_mem_row vs (mr + 1) 0 x h2
          omega
    obtain ⟨e2, hrun, horig, harch, hext2, hinv2, hframe, hcells⟩ :=
      ih e1 (mr + 1) (max mc (vs.length - 1)) hs1 hext1 hinv1
    have horig1 : e1.origCells = e.origCells := by rw [he1]
    have harch1 : e1.archive = e.archive := by rw [he1]
    refine ⟨e2, ?_, ?_, ?_, ?_, ?_, ?_, ?_⟩
    · simp only [appendRows]
      rw [hrow]
      exact hrun
    · rw [horig, horig1]
    · rw [harch, harch1]
    · obtain ⟨mc2, hx⟩ := hext2
      refine ⟨mc2, ?_⟩
      rw [hx]
      have heq : mr + 1 + rest.length = mr + (vs :: rest).length := by
        simp only [List.length_cons]
        omega
      rw [heq]
    · intro x hx
      have := hinv2 x hx
      simp only [List.length_cons]
      omega
    · intro r c hr
      rw [hframe r c (by omega)]
      rw [XlsxEditor.cellAt, XlsxEditor.cellAt, he1]
      dsimp only
      rw [← List.append_assoc]
      apply cellLookup_append_of_none
      apply rowWrites_lookup_none
      left
      omega
    · intro k hk j hj
      cases k with
      | zero =>
        have hj' : j < vs.length := hj
        rw [Nat.add_zero]
        rw [hframe (mr + 1) j (Nat.le_refl _)]
        rw [XlsxEditor.cellAt, he1]
        dsimp only
        rw [← List.append_assoc]
        rw [cellLookup_append]
        have hhit := rowWrites_lookup_hit vs (mr + 1) 0 j hj'
        rw [Nat.zero_add] at hhit
        rw [hhit]
        rfl
      | succ k' =>
        have hk' : k' < rest.length := by
          simp only [List.length_cons] at hk
          omega
        have hj' : j < (rest.get ⟨k', hk'⟩).length := hj
        have hcell := hcells k' hk' j hj'
        have heq : mr + 1 + (k' + 1) = mr + 1 + 1 + k' := by omega
        rw [heq, hcell]
        rfl

/-- Claim C3: on an editor with known extent, a sequence of `append_row`
calls with value lists `R1..Rn` succeeds, writing `Rk` at row
(original max used row) + k with columns starting at 0; the tracked extent
advances by one row per call; and reading back the merged sheet (what save
serializes) yields the rows in call order directly below the original
extent. -/
theorem claim_C3_append_row_ordering :
    ∀ (e : XlsxEditor) (rs : List (List CellValue)) (mr mc : Nat),
      e.state ≠ .saved →
      e.extent = some (mr, mc) →
      e.pending = [] →
      (∀ x ∈ e.origCells, x.1.1 ≤ mr) →
      ∃ e2, appendRows e rs = .ok e2 ∧
        (∃ mc2, e2.extent = some (mr + rs.length, mc2)) ∧
        (∀ k (hk : k < rs.length) (j : Nat) (hj : j < (rs.get ⟨k, hk⟩).length),
          e2.cellAt (mr + 1 + k) j = some ((rs.get ⟨k, hk⟩).get ⟨j, hj⟩)) := by
  intro e rs mr mc hs hext hp horig
  have hinv : ∀ x ∈ e.origCells ++ e.pending, x.1.1 ≤ mr := by
    intro x hx
    rcases List.mem_append.mp hx with h | h
    · exact horig x h
    · rw [hp] at h
      exact absurd h (List.not_mem_nil x)
  obtain ⟨e2, hrun, _, _, hext2, _, _, hcells⟩ := appendRows_spec rs e mr mc hs hext hinv
  exact ⟨e2, hrun, hext2, hcells⟩

/-- Concrete instantiation of claim C3: two appended rows land on rows 1
and 2 of the witness sheet. -/
theorem claim_C3_witness :
    ∃ e2, appendRows wbE [[.num "2"], [.num "3"]] = .ok e2 ∧
      (∃ mc2, e2.extent = some (2, mc2)) ∧
      (∀ k (hk : k < 2) (j : Nat)
        (hj : j < (([[CellValue.num "2"], [CellValue.num "3"]]).get ⟨k, hk⟩).length),
        e2.cellAt (1 + k) j =
          some ((([[CellValue.num "2"], [CellValue.num "3"]]).get ⟨k, hk⟩).get ⟨j, hj⟩)) :=
  claim_C3_append_row_ordering wbE [[.num "2"], [.num "3"]] 0 0
    (by decide) (by rfl) (by rfl) (by decide)

/-! ## Anchored table writes (claim C4) -/

theorem gridWidth_foldl (nc : Nat) : ∀ (rows : List (List CellValue)) (a : Nat),
    rows ≠ [] → (∀ row ∈ rows, row.length = nc) →
    rows.foldl (fun acc row => max acc row.length) a = max a nc := by
  intro rows
  induction rows with
  | nil => intro a h _; exact absurd rfl h
  | cons row rest ih =>
    intro a _ hall
    have hrow : row.length = nc := hall row (List.mem_cons_self row rest)
    cases rest with
    | nil => simp [hrow]
    | cons r2 rs =>
      rw [List.foldl_cons]
      rw [ih (max a row.length) (by simp)
        (fun r hr => hall r (List.mem_cons_of_mem _ hr))]
      rw [hrow, max_assoc, max_self]

theorem gridWidth_uniform (rows : List (List CellValue)) (nc : Nat)
    (hne : rows ≠ []) (hall : ∀ row ∈ rows, row.length = nc) : gridWidth rows = nc := by
  rw [gridWidth, gridWidth_foldl nc rows 0 hne hall]
  simp

/-- Claim C4: `append_table_at(rows, anchor)` with an `r` by `c` rectangular
grid writes cells at exactly the rectangle whose top-left cell is the parsed
anchor, row-major, overwriting pending or original content inside it; the
merged view of every cell outside the rectangle is unchanged, as are the
original cells and the archive; and the tracked extent is extended to cover
the rectangle's bottom-right corner where that exceeds the current extent. -/
theorem claim_C4_anchored_table_containment :
    ∀ (e : XlsxEditor) (rows : List (List CellValue)) (anchor : String)
      (r0 c0 nc : Nat),
      e.state ≠ .saved →
      parseAddr anchor = some (r0, c0) →
      rows ≠ [] →
      0 < nc →
      (∀ row ∈ rows, row.length = nc) →
      ∃ e2, e.append_table_at rows anchor = .ok e2 ∧
        (∀ i (hi : i < rows.length) (j : Nat) (hj : j < (rows.get ⟨i, hi⟩).length),
          e2.cellAt (r0 + i) (c0 + j) = some ((rows.get ⟨i, hi⟩).get ⟨j, hj⟩)) ∧
        (∀ r c, (r < r0 ∨ r0 + rows.length ≤ r ∨ c < c0 ∨ c0 + nc ≤ c) →
          e2.cellAt r c = e.cellAt r c) ∧
        e2.origCells = e.origCells ∧
        e2.archive = e.archive ∧
        (∀ mr mc, e.extent = some (mr, mc) →
          e2.extent = some (max mr (r0 + rows.length - 1), max mc (c0 + nc - 1))) := by
  intro e rows anchor r0 c0 nc hs hp hne hnc hall
  have hw : gridWidth rows = nc := gridWidth_uniform rows nc hne hall
  have hemp : ¬ (rows.isEmpty = true) := by
    cases rows with
    | nil => exact absurd rfl hne
    | cons r rs => simp
  rw [XlsxEditor.append_table_at, if_neg hs, hp]
  dsimp only
  rw [XlsxEditor.writeGrid, if_neg hemp, if_neg (by omega : ¬ gridWidth rows = 0)]
  dsimp only
  refine ⟨_, rfl, ?_, ?_, rfl, rfl, ?_⟩
  · intro i hi j hj
    rw [XlsxEditor.cellAt]
    dsimp only
    rw [← List.append_assoc, cellLookup_append]
    rw [gridWrites_lookup_hit rows r0 c0 i hi j hj]
  · intro r c hout
    rw [XlsxEditor.cellAt, XlsxEditor.cellAt]
    dsimp only
    rw [← List.append_assoc]
    apply cellLookup_append_of_none
    rcases hout with h | h | h | h
    · exact gridWrites_lookup_none_row rows r0 c0 r c (Or.inl h)
    · exact gridWrites_lookup_none_row rows r0 c0 r c (Or.inr h)
    · exact gridWrites_lookup_none_col rows r0 c0 r c (Or.inl h)
    · apply gridWrites_lookup_none_col rows r0 c0 r c
      right
      intro row hrow
      rw [hall row hrow]
      omega
  · intro mr mc hext
    dsimp only
    rw [hext, hw]

/-- Concrete instantiation of claim C4: a 2 by 2 grid anchored at `B15` on
the witness sheet. -/
theorem claim_C4_witness :
    ∃ e2, wbE.append_table_at [[.num "5", .num "6"], [.num "7", .num "8"]] "B15"
        = .ok e2 ∧
      (∀ i (hi : i < 2) (j : Nat)
        (hj : j < (([[CellValue.num "5", CellValue.num "6"],
                    [CellValue.num "7", CellValue.num "8"]]).get ⟨i, hi⟩).length),
        e2.cellAt (14 + i) (1 + j) =
          some ((([[CellValue.num "5", CellValue.num "6"],
                   [CellValue.num "7", CellValue.num "8"]]).get ⟨i, hi⟩).get ⟨j, hj⟩)) ∧
      (∀ r c, (r < 14 ∨ 16 ≤ r ∨ c < 1 ∨ 3 ≤ c) →
        e2.cellAt r c = wbE.cellAt r c) ∧
      e2.origCells = wbE.origCells ∧
      e2.archive = wbE.archive ∧
      (∀ mr mc, wbE.extent = some (mr, mc) →
        e2.extent = some (max mr 15, max mc 2)) :=
  claim_C4_anchored_table_containment wbE
    [[.num "5", .num "6"], [.num "7", .num "8"]] "B15" 14 1 2
    (by decide) (by decide) (by decide) (by decide) (by decide)
